import Mathlib

/-!
Verification development for `scripts/generate-descriptions.py`, the
batch-description pipeline of the brandswitch repository.

The Python script is shallowly embedded: each command (`prepare`, `submit`,
`status`, `merge`) becomes a pure Lean function over an explicit
`PipelineState`, with the remote Batch API and the filesystem passed in as
oracle functions.  Python's on-disk JSON documents become Lean values, a
Python `dict` becomes an insertion-ordered association list, and Python's
string truthiness after `.strip()` becomes `isBlank`.
-/

namespace BrandSwitch

/-- Lifecycle status of a chunk, the string field `status` of a batch entry
in the state file (`"pending" | "submitted" | "in_progress" | "ended" |
"merged"`, comment at line 214 of the script). -/
inductive BatchStatus where
  | pending
  | submitted
  | inProgress
  | ended
  | merged
deriving DecidableEq, Repr

/-- Position of a status along the lifecycle chain
`pending → submitted → in_progress → ended → merged`. -/
def BatchStatus.rank : BatchStatus → Nat
  | .pending => 0
  | .submitted => 1
  | .inProgress => 2
  | .ended => 3
  | .merged => 4

/-- Live processing status reported by the remote service for a submitted
job: `"in_progress" | "ended"` (comment at line 310 of the script). -/
inductive ProcessingStatus where
  | inProgress
  | ended
deriving DecidableEq, Repr

/-- Storing a reported live status into the chunk's `status` field. -/
def ProcessingStatus.toBatchStatus : ProcessingStatus → BatchStatus
  | .inProgress => .inProgress
  | .ended => .ended

/-- One entry of the `batches` list of the state document
(built at lines 210-218 of the script). -/
structure Batch where
  index : Nat
  batch_id : Option String
  file : String
  status : BatchStatus
  count : Nat
  ok : Option Nat
  errors : Option Nat
deriving DecidableEq, Repr

/-- The persisted pipeline state document (lines 221-226 of the script). -/
structure PipelineState where
  prepared_at : String
  total_brands : Nat
  model : String
  batches : List Batch
deriving DecidableEq, Repr

/-- Python truthiness of `s.strip()`, negated: a string is blank when every
character is whitespace (so `s.strip()` is falsy exactly when `isBlank s`). -/
def isBlank (s : String) : Bool :=
  s.data.all (fun c => c.isWhitespace)

/-!  ## Remote oracle types

`retrieve_status` is modelled as a function from a job identifier to the
reported `(processing_status, succeeded_count, errored_count)` triple, and
`stream_results` as a function from a job identifier to the list of
per-record results.  Submission is a function from the submission ordinal and
the request list to the returned job identifier. -/

/-- One line of a request file: `custom_id` plus the generation params
(lines 198-207 of the script). -/
structure BatchRequest where
  custom_id : String
  model : String
  max_tokens : Nat
  prompt : String
deriving DecidableEq, Repr

/-- Outcome of one record of a completed job, as consumed at lines 400-407:
`succeeded` carries the message content blocks (their text), anything else
counts as errored. -/
inductive ResultOutcome where
  | succeeded (content : List String)
  | errored
deriving DecidableEq, Repr

/-- One element streamed by `client.messages.batches.results`. -/
structure BatchResult where
  custom_id : String
  result : ResultOutcome
deriving DecidableEq, Repr

/-- The results cache document (`RESULTS_FILE`): a JSON object, i.e. an
insertion-ordered mapping slug → description. -/
def Cache : Type := List (String × String)

instance : DecidableEq Cache := by
  unfold Cache
  infer_instance

/-- The keys of a cache document. -/
def cacheKeys (c : Cache) : List String := c.map Prod.fst

/-- Python `dict` assignment `d[k] = v`: replace in place if the key is
present, else append at the end. -/
def dictInsert (k v : String) : Cache → Cache
  | [] => [(k, v)]
  | (k', v') :: rest =>
    if k' = k then (k, v) :: rest else (k', v') :: dictInsert k v rest

/-!  ## Status poller (`_check_status`, lines 294-340) -/

/-- The per-batch body of the `_check_status` loop (lines 307-322): refresh a
batch from the live oracle and report whether the stored document changed in a
way that triggers a save.  `client` models
`client.messages.batches.retrieve`. -/
def refreshBatch (client : String → ProcessingStatus × Nat × Nat) (b : Batch) :
    Batch × Bool :=
  match b.batch_id with
  | some bid =>
    if b.status = .submitted ∨ b.status = .inProgress then
      match client bid with
      | (live, okc, errc) =>
        ({ b with status := live.toBatchStatus, ok := some okc,
                  errors := some errc },
         decide (live.toBatchStatus ≠ b.status))
    else if b.status = .ended then
      match b.ok with
      | none =>
        match client bid with
        | (_, okc, errc) => ({ b with ok := some okc, errors := some errc }, true)
      | some _ => (b, false)
    else (b, false)
  | none => (b, false)

/-- `_check_status` (lines 294-340): sweep every batch once, then report
`(updated state, whether the store was saved, overall completion)`.  The
completion boolean is `submitted and all(...)` of line 340, where
`submitted` is the list of batches carrying a job identifier. -/
def checkStatus (client : String → ProcessingStatus × Nat × Nat)
    (st : PipelineState) : PipelineState × Bool × Bool :=
  let pairs := st.batches.map (refreshBatch client)
  let newBatches := pairs.map Prod.fst
  let changed := pairs.any Prod.snd
  let submittedOnes := newBatches.filter (fun b => b.batch_id.isSome)
  let done := !submittedOnes.isEmpty &&
    submittedOnes.all (fun b => decide (b.status = .ended ∨ b.status = .merged))
  ({ st with batches := newBatches }, changed, done)

/-- `cmd_status` without `--watch` (lines 343-349): one `_check_status`
sweep over the loaded state. -/
def cmd_status (client : String → ProcessingStatus × Nat × Nat)
    (st : PipelineState) : PipelineState × Bool × Bool :=
  checkStatus client st

/-!  ## Submission controller (`cmd_submit`, lines 234-289)

The loop at lines 274-286 is embedded as `submitGo`, which also returns the
trace of `_save_state` calls (each a full batches document) and the list of
request lists handed to `client.messages.batches.create`, in order.  `c` is
the number of submissions already performed, so `oracle c reqs` is the job
identifier returned for the `c`-th `create` call. -/

def submitGo (oracle : Nat → List BatchRequest → String)
    (fs : String → List BatchRequest) (c : Nat) :
    List Batch → List Batch × List (List Batch) × List (List BatchRequest)
  | [] => ([], [], [])
  | b :: rest =>
    if b.status = .pending then
      let reqs := fs b.file
      let b' := { b with batch_id := some (oracle c reqs), status := .submitted }
      match submitGo oracle fs (c + 1) rest with
      | (rest', saves, subs) =>
        (b' :: rest', (b' :: rest) :: saves.map (fun l => b' :: l), reqs :: subs)
    else
      match submitGo oracle fs c rest with
      | (rest', saves, subs) => (b :: rest', saves.map (fun l => b :: l), subs)

/-- `cmd_submit` (lines 234-289): returns the final persisted state, the
trace of state documents saved by `_save_state`, and the request lists
submitted to the service.  When no batch is pending the command prints and
delegates to `cmd_status` (lines 240-243), whose sweep saves at most once;
when the operator does not confirm (lines 266-270) nothing happens. -/
def cmd_submit (confirmed : Bool)
    (client : String → ProcessingStatus × Nat × Nat)
    (oracle : Nat → List BatchRequest → String)
    (fs : String → List BatchRequest) (st : PipelineState) :
    PipelineState × List PipelineState × List (List BatchRequest) :=
  let pend := st.batches.filter (fun b => b.status = .pending)
  if pend.isEmpty then
    match checkStatus client st with
    | (st', changed, _) => (st', if changed then [st'] else [], [])
  else if !confirmed then (st, [], [])
  else
    match submitGo oracle fs 0 st.batches with
    | (bs', saves, subs) =>
      ({ st with batches := bs' },
       saves.map (fun l => { st with batches := l }), subs)

/-!  ## Result text normalization (`_sanitize`, lines 367-372)

`text.split()` (split on whitespace runs, discarding empty pieces) and
`" ".join(...)` are embedded on `List Char`; the terminal-punctuation test
`text and text[-1] not in ".!?"` becomes a `getLast?` test. -/

/-- Python `str.split()`: accumulate the current word (reversed) in `acc`,
emit it at each whitespace run and at the end. -/
def splitWs : List Char → List Char → List (List Char)
  | [], [] => []
  | [], acc => [acc.reverse]
  | c :: cs, acc =>
    if c.isWhitespace then
      if acc.isEmpty then splitWs cs [] else acc.reverse :: splitWs cs []
    else splitWs cs (c :: acc)

/-- Python `" ".join(words)` on character lists. -/
def joinWords : List (List Char) → List Char
  | [] => []
  | [w] => w
  | w :: ws => w ++ ' ' :: joinWords ws

/-- Line 369: `" ".join(text.split())`. -/
def collapseWs (s : List Char) : List Char :=
  joinWords (splitWs s [])

/-- The sentence-final punctuation characters of line 370. -/
def punctChars : List Char := ['.', '!', '?']

/-- `_sanitize` on character lists (lines 367-372). -/
def sanitizeL (s : List Char) : List Char :=
  let t := collapseWs s
  match t.getLast? with
  | none => t
  | some c => if c ∈ punctChars then t else t ++ ['.']

/-- `_sanitize` (lines 367-372). -/
def sanitize (s : String) : String :=
  String.mk (sanitizeL s.data)

/-!  ## Result merger (`cmd_merge`, lines 375-450) -/

/-- `_sanitize` works on the raw text of the first content block:
`content[0].text if content else ""` (line 402). -/
def rawOf : List String → String
  | [] => ""
  | t :: _ => t

/-- The per-result loop at lines 399-407, threading the results dict and the
`ok` / `errors` counters. -/
def processResults (rs : List BatchResult) (res : Cache) (ok err : Nat) :
    Cache × Nat × Nat :=
  match rs with
  | [] => (res, ok, err)
  | r :: rest =>
    match r.result with
    | .succeeded content =>
      let raw := rawOf content
      if !isBlank raw then
        processResults rest (dictInsert r.custom_id (sanitize raw) res) (ok + 1) err
      else
        processResults rest res ok err
    | .errored => processResults rest res ok (err + 1)

/-- The skip conditions of lines 387-395: a batch is skipped when it is
already merged, not ended, or has no job identifier. -/
def mergeSkips (b : Batch) : Bool :=
  b.status = .merged ∨ b.status ≠ .ended ∨ b.batch_id = none

/-- The batch loop of `cmd_merge` (lines 386-414): returns the updated
batches, the final results dict, and the job identifiers passed to
`client.messages.batches.results`, in call order.  `client` models that
streaming call. -/
def mergeLoop (client : String → List BatchResult) :
    List Batch → Cache → List Batch × Cache × List String
  | [], res => ([], res, [])
  | b :: rest, res =>
    if b.status = .merged then
      match mergeLoop client rest res with
      | (rest', res', calls) => (b :: rest', res', calls)
    else if b.status ≠ .ended then
      match mergeLoop client rest res with
      | (rest', res', calls) => (b :: rest', res', calls)
    else
      match b.batch_id with
      | none =>
        match mergeLoop client rest res with
        | (rest', res', calls) => (b :: rest', res', calls)
      | some bid =>
        match processResults (client bid) res 0 0 with
        | (res', okc, errc) =>
          let b' := { b with status := .merged, ok := some okc,
                             errors := some errc }
          match mergeLoop client rest res' with
          | (rest', res'', calls) => (b' :: rest', res'', bid :: calls)

/-- `cmd_merge` (lines 375-450) up to and including the persistence of the
results cache: returns the final state, the results cache document on disk
after the command, and the result-retrieval calls performed.  When the dict
is empty the command returns before writing `RESULTS_FILE` (lines 416-418),
leaving the prior cache document in place. -/
def cmd_merge (client : String → List BatchResult) (st : PipelineState)
    (cache0 : Cache) : PipelineState × Cache × List String :=
  match mergeLoop client st.batches cache0 with
  | (bs', res', calls) =>
    if res'.isEmpty then ({ st with batches := bs' }, cache0, calls)
    else ({ st with batches := bs' }, res', calls)

/-!  ## Record scanner (`_scan_brands`, lines 95-130) -/

/-- One entry of a `brands-*.json` collection.  The script accesses `slug`
directly and everything else through `.get` with a default, so the other
fields are optional. -/
structure SourceBrand where
  slug : String
  name : Option String
  domain : Option String
  categories : Option (List String)
  description : Option String
deriving DecidableEq, Repr

/-- One record of `needed_records` as built at lines 123-128. -/
structure NeedRec where
  slug : String
  name : String
  domain : String
  categories : List String
deriving DecidableEq, Repr

/-- Whether a brand entry already carries a description, the pass-1 test
`b.get("description", "").strip()` of line 110. -/
def hasDescription (b : SourceBrand) : Bool :=
  !isBlank (b.description.getD "")

/-- Pass 1 (lines 106-111): the slugs that already have a description in any
collection (a set; modelled as a list queried by membership). -/
def descSlugs (colls : List (String × List SourceBrand)) : List String :=
  (colls.flatMap (fun f => f.2.filter hasDescription)).map (fun b => b.slug)

/-- Pass 2 (lines 114-128) over the flattened record sequence, threading the
`seen` set. -/
def scanNeeds (hasDesc : List String) (seen : List String) :
    List SourceBrand → List NeedRec
  | [] => []
  | b :: rest =>
    if seen.contains b.slug || hasDesc.contains b.slug then
      scanNeeds hasDesc seen rest
    else
      { slug := b.slug, name := b.name.getD b.slug,
        domain := b.domain.getD "", categories := b.categories.getD [] } ::
        scanNeeds hasDesc (b.slug :: seen) rest

/-- `sorted(glob.glob(...))` of line 101: collections ordered
lexicographically by file name. -/
def sortColls (colls : List (String × List SourceBrand)) :
    List (String × List SourceBrand) :=
  colls.insertionSort (fun a b => a.1 ≤ b.1)

/-- `_scan_brands` (lines 95-130): `sys.exit` on an empty glob becomes the
`Except.error` branch; otherwise the deduplicated record list and the number
of collection files. -/
def scanBrands (colls : List (String × List SourceBrand)) :
    Except String (List NeedRec × Nat) :=
  let files := sortColls colls
  if files.isEmpty then
    Except.error "No brands-*.json files found"
  else
    Except.ok (scanNeeds (descSlugs files) [] (files.flatMap (fun f => f.2)),
               files.length)

/-!  ## Batch partitioner (`cmd_prepare`, lines 167-229) -/

/-- Configured model identifier (line 31). -/
def MODEL : String := "claude-haiku-4-5-20251001"

/-- Configured per-request token cap (line 32). -/
def MAX_TOKENS : Nat := 120

/-- Configured per-submission size limit (line 33). -/
def BATCH_SIZE : Nat := 10000

/-- `_build_prompt` (lines 133-144). -/
def buildPrompt (brand : NeedRec) : String :=
  let c1 := match brand.categories with
    | [] => "retail"
    | c :: _ => c
  let c2 := match brand.categories with
    | _ :: c :: _ => " and " ++ c
    | _ => ""
  brand.name ++ " (" ++ brand.domain ++ ") is a " ++ c1 ++ c2 ++ " brand. " ++
    "Write exactly 2 sentences: what they sell, and what makes them notable " ++
    "or who they\x27re for. Reply with only the 2 sentences, no preamble."

/-- The slicing comprehension of line 190,
`[brands[i : i + L] for i in range(0, n, L)]`.  For `L = 0` Python's
`range` would raise; the model returns `[]` there so that the definition is
total. -/
def chunksOf (L : Nat) : List α → List (List α)
  | [] => []
  | x :: xs =>
    if h : L = 0 then []
    else (x :: xs).take L :: chunksOf L ((x :: xs).drop L)
termination_by l => l.length
decreasing_by
  simp only [List.length_drop]
  exact Nat.sub_lt (Nat.succ_pos _) (Nat.pos_of_ne_zero h)

/-- The request line written for one brand (lines 198-207). -/
def buildRequest (brand : NeedRec) : BatchRequest :=
  { custom_id := brand.slug, model := MODEL, max_tokens := MAX_TOKENS,
    prompt := buildPrompt brand }

/-- The request-file name for chunk `i` (line 195). -/
def batchFileName (i : Nat) : String :=
  "data/.desc-batch-" ++ toString i ++ ".jsonl"

/-- The `batch_meta` entry appended for chunk `i` (lines 210-218). -/
def mkBatchMeta (i : Nat) (chunk : List NeedRec) : Batch :=
  { index := i, batch_id := none, file := batchFileName i,
    status := .pending, count := chunk.length, ok := none, errors := none }

/-- The fresh state document built by `cmd_prepare` (lines 190-226), together
with the request files written (name, one request per record). -/
def prepareFresh (L : Nat) (prepared_at : String) (brands : List NeedRec) :
    PipelineState × List (String × List BatchRequest) :=
  let chunks := chunksOf L brands
  ({ prepared_at := prepared_at, total_brands := brands.length,
     model := MODEL,
     batches := chunks.enum.map (fun p => mkBatchMeta p.1 p.2) },
   chunks.enum.map (fun p => (batchFileName p.1, p.2.map buildRequest)))

/-- `cmd_prepare` (lines 167-229): when a state file already exists and
`--force` was not given, the command prints and returns without touching
anything (lines 171-177); otherwise it builds and saves a fresh document.
The chunk limit `L` is the `BATCH_SIZE` configuration constant, kept as a
parameter. -/
def cmd_prepare (L : Nat) (force : Bool) (existing : Option PipelineState)
    (prepared_at : String) (brands : List NeedRec) :
    PipelineState × List (String × List BatchRequest) :=
  match existing with
  | some st => if !force then (st, []) else prepareFresh L prepared_at brands
  | none => prepareFresh L prepared_at brands

/-!  ## State store persistence (`_save_state`, lines 85-86)

`STATE_FILE.write_text(...)` opens the file in mode `"w"` — truncating it —
and then writes the serialized document.  A crash can therefore stop the
write after any prefix of the new contents has reached the file.
`writeTextViews old new` lists every file content observable at some point
of the write: the previous document, then each prefix of the new one (the
empty prefix is the state right after truncation), ending with the complete
new document. -/

def writeTextViews (old new : String) : List String :=
  old :: (List.range (new.data.length + 1)).map (fun k => String.mk (new.data.take k))

/-- Minimal rendering of the state document, standing in for
`json.dumps(state, indent=2)` at line 86: a nonempty full-document text
determined by the state. -/
def encodeStatus : BatchStatus → String
  | .pending => "pending"
  | .submitted => "submitted"
  | .inProgress => "in_progress"
  | .ended => "ended"
  | .merged => "merged"

/-- Rendering of one batch entry for `encodeState`. -/
def encodeBatch (b : Batch) : String :=
  "batch " ++ toString b.index ++ " " ++ b.batch_id.getD "null" ++ " " ++
    b.file ++ " " ++ encodeStatus b.status ++ " " ++ toString b.count

/-- Rendering of the whole state document for `_save_state`. -/
def encodeState (st : PipelineState) : String :=
  "state " ++ st.prepared_at ++ " " ++ toString st.total_brands ++ " " ++
    st.model ++ String.join (st.batches.map (fun b => " " ++ encodeBatch b))

/-- `_save_state st` over a file currently holding `old`: the observable
file contents during the write. -/
def saveStateViews (old : String) (st : PipelineState) : List String :=
  writeTextViews old (encodeState st)

/-!  ## Verification-side predicates -/

/-- Forward movement along the lifecycle chain for operations that never set
`merged`. -/
def StepForward (b b' : Batch) : Prop :=
  b.status.rank ≤ b'.status.rank ∧ (b'.status = .merged → b.status = .merged)

/-- Forward movement for the merger, which may set `merged`, but only from
`ended`. -/
def StepForwardMerge (b b' : Batch) : Prop :=
  b.status.rank ≤ b'.status.rank ∧
    (b'.status = .merged → b.status = .merged ∨ b.status = .ended)

/-- What one `cmd_merge` pass does to one batch entry: skipped entries are
untouched, processed ones become `merged` with counters stored. -/
def MergeStep (b b' : Batch) : Prop :=
  if mergeSkips b then b' = b
  else b'.status = .merged ∧ b'.batch_id = b.batch_id ∧ b'.index = b.index ∧
    b'.file = b.file ∧ b'.count = b.count ∧ b'.ok.isSome ∧ b'.errors.isSome

/-- Indexed view of the submission loop: the batches document after the
first `j` pending chunks have been submitted, `c` submissions having already
happened before this list. -/
def submitUpTo (oracle : Nat → List BatchRequest → String)
    (fs : String → List BatchRequest) (j c : Nat) : List Batch → List Batch
  | [] => []
  | b :: rest =>
    if b.status = .pending then
      match j with
      | 0 => b :: rest
      | j' + 1 =>
        { b with batch_id := some (oracle c (fs b.file)),
                 status := .submitted } :: submitUpTo oracle fs j' (c + 1) rest
    else b :: submitUpTo oracle fs j c rest

/-- What one `cmd_submit` pass does to one batch entry when every pending
chunk gets submitted. -/
def SubmitStep (b b' : Batch) : Prop :=
  if b.status = .pending then
    b'.status = .submitted ∧ b'.batch_id.isSome ∧ b'.index = b.index ∧
      b'.file = b.file ∧ b'.count = b.count ∧ b'.ok = b.ok ∧
      b'.errors = b.errors
  else b' = b

/-- A streamed result that succeeded with non-blank text — exactly the ones
`cmd_merge` caches and counts as `ok`. -/
def succNonBlank (r : BatchResult) : Bool :=
  match r.result with
  | .succeeded content => !isBlank (rawOf content)
  | .errored => false

/-- A streamed result that succeeded but with empty or whitespace-only
text. -/
def succBlank (r : BatchResult) : Bool :=
  match r.result with
  | .succeeded content => isBlank (rawOf content)
  | .errored => false

/-- A streamed result that did not succeed. -/
def isErrored (r : BatchResult) : Bool :=
  match r.result with
  | .succeeded _ => false
  | .errored => true

/-- A character list with collapsed whitespace: every whitespace character
is a single space, no two spaces are adjacent, and the list neither starts
nor ends with a space. -/
def collapsedSpec (l : List Char) : Prop :=
  (∀ c ∈ l, c.isWhitespace = true → c = ' ') ∧
  List.Chain' (fun a b => ¬(a = ' ' ∧ b = ' ')) l ∧
  l.head? ≠ some ' ' ∧ l.getLast? ≠ some ' '

/-- First-occurrence deduplication, the order the spec prescribes for
`needed_records`. -/
def dedupFirst : List String → List String
  | [] => []
  | s :: rest => s :: dedupFirst (rest.filter (fun x => x ≠ s))
termination_by l => l.length
decreasing_by
  exact Nat.lt_succ_of_le (List.length_filter_le _ _)

/-!  # Lemmas -/

/-- `dict` assignment never removes a key. -/
theorem dictInsert_keys_mono (k v k₀ : String) (c : Cache)
    (h : k₀ ∈ cacheKeys c) : k₀ ∈ cacheKeys (dictInsert k v c) := by
  induction c with
  | nil => cases h
  | cons p rest ih =>
    rcases p with ⟨k', v'⟩
    by_cases hk : k' = k
    · simp only [dictInsert, if_pos hk, cacheKeys, List.map_cons] at h ⊢
      subst hk
      exact h
    · simp only [dictInsert, if_neg hk, cacheKeys, List.map_cons,
        List.mem_cons] at h ⊢
      rcases h with h | h
      · exact Or.inl h
      · exact Or.inr (ih h)

/-- A key of `dictInsert k v c` is `k` or a key of `c`. -/
theorem dictInsert_keys_sub (k v k₀ : String) (c : Cache)
    (h : k₀ ∈ cacheKeys (dictInsert k v c)) : k₀ = k ∨ k₀ ∈ cacheKeys c := by
  induction c with
  | nil =>
    simp only [dictInsert, cacheKeys, List.map_cons, List.map_nil,
      List.mem_singleton] at h
    exact Or.inl h
  | cons p rest ih =>
    rcases p with ⟨k', v'⟩
    by_cases hk : k' = k
    · simp only [dictInsert, if_pos hk, cacheKeys, List.map_cons,
        List.mem_cons] at h ⊢
      subst hk
      rcases h with h | h
      · exact Or.inl h
      · exact Or.inr (Or.inr h)
    · simp only [dictInsert, if_neg hk, cacheKeys, List.map_cons,
        List.mem_cons] at h ⊢
      rcases h with h | h
      · exact Or.inr (Or.inl h)
      · rcases ih h with h | h
        · exact Or.inl h
        · exact Or.inr (Or.inr h)

/-- The result loop never removes a cache key. -/
theorem processResults_keys_mono (rs : List BatchResult) (res : Cache)
    (ok err : Nat) (k₀ : String) (h : k₀ ∈ cacheKeys res) :
    k₀ ∈ cacheKeys (processResults rs res ok err).1 := by
  induction rs generalizing res ok err with
  | nil => exact h
  | cons r rest ih =>
    cases hr : r.result with
    | succeeded content =>
      by_cases hb : isBlank (rawOf content)
      · simpa [processResults, hr, hb] using ih res ok err h
      · simpa [processResults, hr, hb] using
          ih _ (ok + 1) err (dictInsert_keys_mono _ _ _ _ h)
    | errored => simpa [processResults, hr] using ih res ok (err + 1) h

/-- Every key the result loop adds comes from a succeeded, non-blank result
of the streamed list. -/
theorem processResults_keys_sub (rs : List BatchResult) (res : Cache)
    (ok err : Nat) (k₀ : String)
    (h : k₀ ∈ cacheKeys (processResults rs res ok err).1) :
    k₀ ∈ cacheKeys res ∨
      ∃ r ∈ rs, succNonBlank r = true ∧ r.custom_id = k₀ := by
  induction rs generalizing res ok err with
  | nil => exact Or.inl h
  | cons r rest ih =>
    cases hr : r.result with
    | succeeded content =>
      by_cases hb : isBlank (rawOf content)
      · simp only [processResults, hr, hb, Bool.not_true, if_neg] at h
        rcases ih res ok err (by simpa using h) with h' | ⟨r', hr', hs, hk⟩
        · exact Or.inl h'
        · exact Or.inr ⟨r', List.mem_cons_of_mem _ hr', hs, hk⟩
      · simp only [processResults, hr, hb] at h
        rcases ih _ (ok + 1) err (by simpa using h) with h' | ⟨r', hr', hs, hk⟩
        · rcases dictInsert_keys_sub _ _ _ _ h' with h'' | h''
          · exact Or.inr ⟨r, List.mem_cons_self r rest,
              by simp [succNonBlank, hr, hb], h''.symm⟩
          · exact Or.inl h''
        · exact Or.inr ⟨r', List.mem_cons_of_mem _ hr', hs, hk⟩
    | errored =>
      simp only [processResults, hr] at h
      rcases ih res ok (err + 1) (by simpa using h) with h' | ⟨r', hr', hs, hk⟩
      · exact Or.inl h'
      · exact Or.inr ⟨r', List.mem_cons_of_mem _ hr', hs, hk⟩

/-- The `ok` counter of the result loop counts exactly the succeeded
non-blank results. -/
theorem processResults_ok (rs : List BatchResult) (res : Cache)
    (ok err : Nat) :
    (processResults rs res ok err).2.1 = ok + rs.countP succNonBlank := by
  induction rs generalizing res ok err with
  | nil => simp [processResults]
  | cons r rest ih =>
    cases hr : r.result with
    | succeeded content =>
      by_cases hb : isBlank (rawOf content)
      · simp [processResults, hr, hb, ih, List.countP_cons, succNonBlank]
      · simp only [processResults, hr, hb, Bool.not_false, if_pos]
        rw [ih, List.countP_cons]
        simp [succNonBlank, hr, hb]
        omega
    | errored =>
      simp only [processResults, hr]
      rw [ih, List.countP_cons]
      simp [succNonBlank, hr]

/-- The `errors` counter of the result loop counts exactly the
non-succeeded results. -/
theorem processResults_err (rs : List BatchResult) (res : Cache)
    (ok err : Nat) :
    (processResults rs res ok err).2.2 = err + rs.countP isErrored := by
  induction rs generalizing res ok err with
  | nil => simp [processResults]
  | cons r rest ih =>
    cases hr : r.result with
    | succeeded content =>
      by_cases hb : isBlank (rawOf content)
      · simp [processResults, hr, hb, ih, List.countP_cons, isErrored]
      · simp only [processResults, hr, hb, Bool.not_false, if_pos]
        rw [ih, List.countP_cons]
        simp [isErrored, hr]
    | errored =>
      simp only [processResults, hr]
      rw [ih, List.countP_cons]
      simp [isErrored, hr]
      omega

/-- Every streamed result is succeeded-non-blank, succeeded-blank, or
errored. -/
theorem countP_results_partition (rs : List BatchResult) :
    rs.countP succNonBlank + rs.countP isErrored + rs.countP succBlank =
      rs.length := by
  induction rs with
  | nil => simp
  | cons r rest ih =>
    rcases hr : r.result with content | _
    · by_cases hb : isBlank (rawOf content) <;>
        simp [List.countP_cons, succNonBlank, succBlank, isErrored, hr, hb] <;>
        omega
    · simp [List.countP_cons, succNonBlank, succBlank, isErrored, hr]
      omega

/-- Pointwise effect of the merge loop on the batches document. -/
theorem mergeLoop_forall₂ (client : String → List BatchResult) :
    ∀ (bs : List Batch) (res : Cache),
      List.Forall₂ MergeStep bs (mergeLoop client bs res).1 := by
  intro bs
  induction bs with
  | nil => intro res; exact List.Forall₂.nil
  | cons b rest ih =>
    intro res
    by_cases h1 : b.status = .merged
    · rcases hm : mergeLoop client rest res with ⟨rest', res', calls⟩
      have hstep : MergeStep b b := by
        simp [MergeStep, mergeSkips, h1]
      simpa [mergeLoop, h1, hm] using List.Forall₂.cons hstep (by
        simpa [hm] using ih res)
    · by_cases h2 : b.status = .ended
      · cases hid : b.batch_id with
        | none =>
          rcases hm : mergeLoop client rest res with ⟨rest', res', calls⟩
          have hstep : MergeStep b b := by
            simp [MergeStep, mergeSkips, hid]
          simpa [mergeLoop, h1, h2, hid, hm] using List.Forall₂.cons hstep (by
            simpa [hm] using ih res)
        | some bid =>
          rcases hp : processResults (client bid) res 0 0 with ⟨res', okc, errc⟩
          rcases hm : mergeLoop client rest res' with ⟨rest', res'', calls⟩
          have hstep : MergeStep b { b with status := .merged, ok := some okc, errors := some errc } := by
            simp [MergeStep, mergeSkips, h1, h2, hid]
          simpa [mergeLoop, h1, h2, hid, hp, hm] using
            List.Forall₂.cons hstep (by simpa [hm] using ih res')
      · rcases hm : mergeLoop client rest res with ⟨rest', res', calls⟩
        have hstep : MergeStep b b := by
          simp [MergeStep, mergeSkips, h2]
        simpa [mergeLoop, h1, h2, hm] using List.Forall₂.cons hstep (by
          simpa [hm] using ih res)

/-- The merge loop performs exactly one result-retrieval call per
non-skipped batch, in order. -/
theorem mergeLoop_calls (client : String → List BatchResult) :
    ∀ (bs : List Batch) (res : Cache),
      (mergeLoop client bs res).2.2 =
        bs.filterMap (fun b => if mergeSkips b then none else b.batch_id) := by
  intro bs
  induction bs with
  | nil => intro res; simp [mergeLoop]
  | cons b rest ih =>
    intro res
    by_cases h1 : b.status = .merged
    · rcases hm : mergeLoop client rest res with ⟨rest', res', calls⟩
      have := ih res
      rw [hm] at this
      simp only [mergeLoop, h1, if_pos, hm, List.filterMap_cons]
      simpa [mergeSkips, h1] using this
    · by_cases h2 : b.status = .ended
      · cases hid : b.batch_id with
        | none =>
          rcases hm : mergeLoop client rest res with ⟨rest', res', calls⟩
          have := ih res
          rw [hm] at this
          simpa [mergeLoop, h1, h2, hid, hm, List.filterMap_cons,
            mergeSkips] using this
        | some bid =>
          rcases hp : processResults (client bid) res 0 0 with ⟨res', okc, errc⟩
          rcases hm : mergeLoop client rest res' with ⟨rest', res'', calls⟩
          have := ih res'
          rw [hm] at this
          simpa [mergeLoop, h1, h2, hid, hp, hm, List.filterMap_cons,
            mergeSkips] using this
      · rcases hm : mergeLoop client rest res with ⟨rest', res', calls⟩
        have := ih res
        rw [hm] at this
        simpa [mergeLoop, h1, h2, hm, List.filterMap_cons, mergeSkips]
          using this

/-- If every batch is skipped, the merge loop leaves the results dict
untouched. -/
theorem mergeLoop_cache_of_skips (client : String → List BatchResult) :
    ∀ (bs : List Batch) (res : Cache),
      (∀ b ∈ bs, mergeSkips b = true) →
      (mergeLoop client bs res).2.1 = res := by
  intro bs
  induction bs with
  | nil => intro res _; simp [mergeLoop]
  | cons b rest ih =>
    intro res hall
    have hb : mergeSkips b = true := hall b (List.mem_cons_self b rest)
    have hrest : ∀ x ∈ rest, mergeSkips x = true :=
      fun x hx => hall x (List.mem_cons_of_mem _ hx)
    by_cases h1 : b.status = .merged
    · rcases hm : mergeLoop client rest res with ⟨rest', res', calls⟩
      have := ih res hrest
      rw [hm] at this
      simpa [mergeLoop, h1, hm] using this
    · by_cases h2 : b.status = .ended
      · cases hid : b.batch_id with
        | none =>
          rcases hm : mergeLoop client rest res with ⟨rest', res', calls⟩
          have := ih res hrest
          rw [hm] at this
          simpa [mergeLoop, h1, h2, hid, hm] using this
        | some bid =>
          exfalso
          simp [mergeSkips, h1, h2, hid] at hb
      · rcases hm : mergeLoop client rest res with ⟨rest', res', calls⟩
        have := ih res hrest
        rw [hm] at this
        simpa [mergeLoop, h1, h2, hm] using this

/-- The merge loop never removes a cache key. -/
theorem mergeLoop_keys_mono (client : String → List BatchResult) :
    ∀ (bs : List Batch) (res : Cache) (k₀ : String),
      k₀ ∈ cacheKeys res → k₀ ∈ cacheKeys (mergeLoop client bs res).2.1 := by
  intro bs
  induction bs with
  | nil => intro res k₀ h; simpa [mergeLoop] using h
  | cons b rest ih =>
    intro res k₀ h
    by_cases h1 : b.status = .merged
    · rcases hm : mergeLoop client rest res with ⟨rest', res', calls⟩
      have := ih res k₀ h
      rw [hm] at this
      simpa [mergeLoop, h1, hm] using this
    · by_cases h2 : b.status = .ended
      · cases hid : b.batch_id with
        | none =>
          rcases hm : mergeLoop client rest res with ⟨rest', res', calls⟩
          have := ih res k₀ h
          rw [hm] at this
          simpa [mergeLoop, h1, h2, hid, hm] using this
        | some bid =>
          rcases hp : processResults (client bid) res 0 0 with ⟨res', okc, errc⟩
          rcases hm : mergeLoop client rest res' with ⟨rest', res'', calls⟩
          have hres' : k₀ ∈ cacheKeys res' := by
            have := processResults_keys_mono (client bid) res 0 0 k₀ h
            rw [hp] at this
            exact this
          have := ih res' k₀ hres'
          rw [hm] at this
          simpa [mergeLoop, h1, h2, hid, hp, hm] using this
      · rcases hm : mergeLoop client rest res with ⟨rest', res', calls⟩
        have := ih res k₀ h
        rw [hm] at this
        simpa [mergeLoop, h1, h2, hm] using this

/-!  # Claim theorems: result merger -/

/-- C7: merge is idempotent per chunk.  Every already-`merged` chunk, every
chunk not in status `ended`, and every chunk lacking a job identifier is
left untouched (`MergeStep` with `mergeSkips`), result-retrieval calls are
made exactly for the non-skipped chunks, and when every chunk is skipped
the results cache document is unchanged, while the operation still
completes over the remaining chunks. -/
theorem C7_merge_idempotent (client : String → List BatchResult)
    (st : PipelineState) (cache0 : Cache) :
    List.Forall₂ MergeStep st.batches (cmd_merge client st cache0).1.batches ∧
    (cmd_merge client st cache0).2.2 =
      st.batches.filterMap
        (fun b => if mergeSkips b then none else b.batch_id) ∧
    ((∀ b ∈ st.batches, mergeSkips b = true) →
      (cmd_merge client st cache0).2.1 = cache0) := by
  rcases hm : mergeLoop client st.batches cache0 with ⟨bs', res', calls⟩
  by_cases he : res'.isEmpty
  · refine ⟨?_, ?_, ?_⟩
    · have := mergeLoop_forall₂ client st.batches cache0
      rw [hm] at this
      simpa [cmd_merge, hm, he] using this
    · have := mergeLoop_calls client st.batches cache0
      rw [hm] at this
      simpa [cmd_merge, hm, he] using this
    · intro _
      simp [cmd_merge, hm, he]
  · refine ⟨?_, ?_, ?_⟩
    · have := mergeLoop_forall₂ client st.batches cache0
      rw [hm] at this
      simpa [cmd_merge, hm, he] using this
    · have := mergeLoop_calls client st.batches cache0
      rw [hm] at this
      simpa [cmd_merge, hm, he] using this
    · intro hall
      have := mergeLoop_cache_of_skips client st.batches cache0 hall
      rw [hm] at this
      simpa [cmd_merge, hm, he] using this

/-- C7 witness: re-merging a state whose only chunk is already `merged`
leaves the results cache document untouched. -/
theorem C7_merge_idempotent_witness :
    (cmd_merge (fun _ => [])
      ⟨"t", 1, "m", [⟨0, some "j", "f", .merged, 1, none, none⟩]⟩
      [("a", "Old.")]).2.1 = [("a", "Old.")] :=
  (C7_merge_idempotent _ _ _).2.2 (by decide)

/-- C8 (amended): the results cache only grows in keys — every identity key
present before a merge is still present afterwards. -/
theorem C8_cache_keys_monotone (client : String → List BatchResult)
    (st : PipelineState) (cache0 : Cache) (k₀ : String)
    (h : k₀ ∈ cacheKeys cache0) :
    k₀ ∈ cacheKeys (cmd_merge client st cache0).2.1 := by
  rcases hm : mergeLoop client st.batches cache0 with ⟨bs', res', calls⟩
  by_cases he : res'.isEmpty
  · simpa [cmd_merge, hm, he] using h
  · have := mergeLoop_keys_mono client st.batches cache0 k₀ h
    rw [hm] at this
    simpa [cmd_merge, hm, he] using this

/-- C8 witness: the pre-existing key `a` survives a merge that downloads a
fresh result for it. -/
theorem C8_cache_keys_monotone_witness :
    "a" ∈ cacheKeys (cmd_merge (fun _ => [⟨"a", .succeeded ["New"]⟩])
      ⟨"t", 1, "m", [⟨0, some "j", "f", .ended, 1, none, none⟩]⟩
      [("a", "Old.")]).2.1 :=
  C8_cache_keys_monotone _ _ _ "a" (by decide)

/-- C8 counterexample: an existing key's text CAN be replaced.  With the
cache holding `a ↦ "Old."`, merging an `ended` chunk whose downloaded
results contain a succeeded result for `a` with text `"New"` rewrites the
entry to `"New."` — `results[result.custom_id] = _sanitize(raw)` at
line 404 overwrites unconditionally. -/
theorem C8_text_replaced_counterexample :
    List.lookup "a" [("a", "Old.")] = some "Old." ∧
    List.lookup "a" (cmd_merge (fun _ => [⟨"a", .succeeded ["New"]⟩])
      ⟨"t", 1, "m", [⟨0, some "j", "f", .ended, 1, none, none⟩]⟩
      [("a", "Old.")]).2.1 = some "New." ∧
    ("New." : String) ≠ "Old." := by
  refine ⟨rfl, by decide, by decide⟩

/-- C10: during merge of an `ended` chunk, a succeeded result with blank
text is neither cached nor counted: the stored `ok` counts exactly the
succeeded non-blank results, `errors` the non-succeeded ones, the two plus
the blank successes partition the stream, and every newly cached key comes
from a succeeded non-blank result. -/
theorem C10_blank_success_uncounted (client : String → List BatchResult)
    (res : Cache) (b : Batch) (bid : String)
    (hb : b.status = .ended) (hid : b.batch_id = some bid) :
    mergeLoop client [b] res =
      ([{ b with status := .merged, ok := some ((client bid).countP succNonBlank), errors := some ((client bid).countP isErrored) }],
       (processResults (client bid) res 0 0).1, [bid]) ∧
    (client bid).countP succNonBlank + (client bid).countP isErrored +
      (client bid).countP succBlank = (client bid).length ∧
    (∀ k₀, k₀ ∈ cacheKeys (processResults (client bid) res 0 0).1 →
      k₀ ∈ cacheKeys res ∨
        ∃ r ∈ client bid, succNonBlank r = true ∧ r.custom_id = k₀) := by
  have hnm : ¬b.status = .merged := by simp [hb]
  refine ⟨?_, countP_results_partition _, ?_⟩
  · rcases hp : processResults (client bid) res 0 0 with ⟨res', okc, errc⟩
    have hok := processResults_ok (client bid) res 0 0
    have herr := processResults_err (client bid) res 0 0
    rw [hp] at hok herr
    simp only [Nat.zero_add] at hok herr
    simp [mergeLoop, hnm, hb, hid, hp, hok, herr]
  · intro k₀ hk
    exact processResults_keys_sub _ _ _ _ _ hk

/-- C10 witness: a stream with one good success, one whitespace-only
success and one error yields `ok = 1`, `errors = 1` on a chunk of three
streamed results. -/
theorem C10_blank_success_uncounted_witness :
    mergeLoop (fun _ => [⟨"k1", .succeeded ["ok"]⟩, ⟨"k2", .succeeded [" "]⟩, ⟨"k3", .errored⟩]) [⟨0, some "j", "f", .ended, 3, none, none⟩] [] =
      ([{ (⟨0, some "j", "f", .ended, 3, none, none⟩ : Batch) with status := .merged, ok := some (List.countP succNonBlank ([⟨"k1", .succeeded ["ok"]⟩, ⟨"k2", .succeeded [" "]⟩, ⟨"k3", .errored⟩] : List BatchResult)), errors := some (List.countP isErrored ([⟨"k1", .succeeded ["ok"]⟩, ⟨"k2", .succeeded [" "]⟩, ⟨"k3", .errored⟩] : List BatchResult)) }],
       (processResults [⟨"k1", .succeeded ["ok"]⟩, ⟨"k2", .succeeded [" "]⟩, ⟨"k3", .errored⟩] [] 0 0).1, ["j"]) ∧
    List.countP succNonBlank ([⟨"k1", .succeeded ["ok"]⟩, ⟨"k2", .succeeded [" "]⟩, ⟨"k3", .errored⟩] : List BatchResult) +
      List.countP isErrored ([⟨"k1", .succeeded ["ok"]⟩, ⟨"k2", .succeeded [" "]⟩, ⟨"k3", .errored⟩] : List BatchResult) +
      List.countP succBlank ([⟨"k1", .succeeded ["ok"]⟩, ⟨"k2", .succeeded [" "]⟩, ⟨"k3", .errored⟩] : List BatchResult) =
      List.length ([⟨"k1", .succeeded ["ok"]⟩, ⟨"k2", .succeeded [" "]⟩, ⟨"k3", .errored⟩] : List BatchResult) ∧
    (∀ k₀, k₀ ∈ cacheKeys (processResults [⟨"k1", .succeeded ["ok"]⟩, ⟨"k2", .succeeded [" "]⟩, ⟨"k3", .errored⟩] [] 0 0).1 →
      k₀ ∈ cacheKeys [] ∨
        ∃ r ∈ [(⟨"k1", .succeeded ["ok"]⟩ : BatchResult), ⟨"k2", .succeeded [" "]⟩, ⟨"k3", .errored⟩], succNonBlank r = true ∧ r.custom_id = k₀) :=
  C10_blank_success_uncounted _ [] _ "j" rfl rfl

/-!  # Lemmas: status poller and submission controller -/

/-- Pointwise `Forall₂` against a mapped copy of the same list. -/
theorem forall₂_map_self {α : Type} (R : α → α → Prop) (f : α → α) :
    ∀ l : List α, (∀ a ∈ l, R a (f a)) → List.Forall₂ R l (l.map f) := by
  intro l
  induction l with
  | nil => intro _; exact List.Forall₂.nil
  | cons a t ih =>
    intro h
    exact List.Forall₂.cons (h a (List.mem_cons_self a t))
      (ih fun x hx => h x (List.mem_cons_of_mem _ hx))

/-- One poller refresh preserves the job identifier, never moves the status
backward, and never produces `merged`. -/
theorem refreshBatch_spec (client : String → ProcessingStatus × Nat × Nat)
    (b : Batch) :
    (refreshBatch client b).1.batch_id = b.batch_id ∧
    b.status.rank ≤ (refreshBatch client b).1.status.rank ∧
    ((refreshBatch client b).1.status = .merged → b.status = .merged) := by
  cases hid : b.batch_id with
  | none => simp [refreshBatch, hid]
  | some bid =>
    by_cases h1 : b.status = .submitted ∨ b.status = .inProgress
    · rcases hc : client bid with ⟨live, okc, errc⟩
      cases live <;> rcases h1 with h1 | h1 <;>
        simp [refreshBatch, hid, h1, hc, ProcessingStatus.toBatchStatus,
          BatchStatus.rank]
    · by_cases h2 : b.status = .ended
      · cases hok : b.ok with
        | none =>
          rcases hc : client bid with ⟨live, okc, errc⟩
          simp [refreshBatch, hid, h1, h2, hok, hc, BatchStatus.rank]
        | some n => simp [refreshBatch, hid, h1, h2, hok]
      · simp [refreshBatch, hid, h1, h2]

/-- The poller's updated batches document, componentwise. -/
theorem checkStatus_batches (client : String → ProcessingStatus × Nat × Nat)
    (st : PipelineState) :
    (checkStatus client st).1.batches =
      st.batches.map (fun b => (refreshBatch client b).1) := by
  simp [checkStatus, List.map_map, Function.comp]

/-- The poller only moves statuses forward and never sets `merged`. -/
theorem checkStatus_forward (client : String → ProcessingStatus × Nat × Nat)
    (st : PipelineState) :
    List.Forall₂ StepForward st.batches (checkStatus client st).1.batches := by
  rw [checkStatus_batches]
  refine forall₂_map_self _ _ _ (fun b _ => ?_)
  rcases refreshBatch_spec client b with ⟨_, h1, h2⟩
  exact ⟨h1, h2⟩

/-- `submitUpTo` with no budget is the identity. -/
theorem submitUpTo_zero (oracle : Nat → List BatchRequest → String)
    (fs : String → List BatchRequest) :
    ∀ (bs : List Batch) (c : Nat), submitUpTo oracle fs 0 c bs = bs := by
  intro bs
  induction bs with
  | nil => intro c; rfl
  | cons b rest ih =>
    intro c
    by_cases hp : b.status = .pending
    · simp [submitUpTo, hp]
    · simp [submitUpTo, hp, ih c]

/-- The submission loop equals its indexed view: it transforms exactly the
pending chunks, saves the state document once per submitted chunk
(immediately, before the next chunk), and hands exactly the pending chunks'
request lists to the service. -/
theorem submitGo_spec (oracle : Nat → List BatchRequest → String)
    (fs : String → List BatchRequest) :
    ∀ (bs : List Batch) (c : Nat),
      submitGo oracle fs c bs =
        (submitUpTo oracle fs
            ((bs.filter (fun b => b.status = .pending)).length) c bs,
         (List.range ((bs.filter (fun b => b.status = .pending)).length)).map
            (fun k => submitUpTo oracle fs (k + 1) c bs),
         (bs.filter (fun b => b.status = .pending)).map (fun b => fs b.file)) := by
  intro bs
  induction bs with
  | nil => intro c; simp [submitGo, submitUpTo]
  | cons b rest ih =>
    intro c
    by_cases hp : b.status = .pending
    · have hrec := ih (c + 1)
      simp only [submitGo, hp, if_pos, hrec, List.filter_cons, hp,
        decide_eq_true_eq, if_true]
      simp only [List.length_cons, List.range_succ_eq_map, List.map_cons,
        List.map_map, List.map_cons]
      simp only [Prod.mk.injEq]
      refine ⟨?_, ?_, ?_⟩
      · simp [submitUpTo, hp]
      · congr 1
        · simp [submitUpTo, hp, submitUpTo_zero]
        · apply List.map_congr_left
          intro k _
          simp [Function.comp, submitUpTo, hp, Nat.succ_eq_add_one]
      · simp
    · have hrec := ih c
      simp only [submitGo, hp, if_neg, if_false, hrec, List.filter_cons]
      simp only [hp, decide_eq_true_eq, if_false, List.map_map]
      simp only [Prod.mk.injEq]
      refine ⟨?_, ?_, ?_⟩
      · simp [submitUpTo, hp]
      · apply List.map_congr_left
        intro k _
        simp [Function.comp, submitUpTo, hp]
      · trivial

/-- Pointwise effect of submitting every pending chunk. -/
theorem submitUpTo_forall₂ (oracle : Nat → List BatchRequest → String)
    (fs : String → List BatchRequest) :
    ∀ (bs : List Batch) (c : Nat),
      List.Forall₂ SubmitStep bs
        (submitUpTo oracle fs
          ((bs.filter (fun b => b.status = .pending)).length) c bs) := by
  intro bs
  induction bs with
  | nil => intro c; exact List.Forall₂.nil
  | cons b rest ih =>
    intro c
    by_cases hp : b.status = .pending
    · have hstep : SubmitStep b { b with batch_id := some (oracle c (fs b.file)), status := .submitted } := by
        simp [SubmitStep, hp]
      simpa [List.filter_cons, hp, submitUpTo] using
        List.Forall₂.cons hstep (ih (c + 1))
    · have hstep : SubmitStep b b := by
        simp [SubmitStep, hp]
      simpa [List.filter_cons, hp, submitUpTo] using
        List.Forall₂.cons hstep (ih c)

/-- A submitted-or-untouched chunk never moved backward and never became
`merged`. -/
theorem submitStep_forward {b b' : Batch} (h : SubmitStep b b') :
    StepForward b b' := by
  unfold SubmitStep at h
  by_cases hp : b.status = .pending
  · rw [if_pos hp] at h
    rcases h with ⟨h1, _⟩
    constructor
    · rw [hp, h1]
      exact Nat.le_succ 0
    · intro hm
      rw [h1] at hm
      cases hm
  · rw [if_neg hp] at h
    subst h
    exact ⟨Nat.le_refl _, fun hm => hm⟩

/-- The submit command only moves statuses forward and never sets
`merged`, on every control path. -/
theorem cmd_submit_forward (confirmed : Bool)
    (client : String → ProcessingStatus × Nat × Nat)
    (oracle : Nat → List BatchRequest → String)
    (fs : String → List BatchRequest) (st : PipelineState) :
    List.Forall₂ StepForward st.batches
      (cmd_submit confirmed client oracle fs st).1.batches := by
  by_cases he : (st.batches.filter (fun b => b.status = .pending)).isEmpty
  · rcases hc : checkStatus client st with ⟨st', changed, done⟩
    have := checkStatus_forward client st
    rw [hc] at this
    simpa [cmd_submit, he, hc] using this
  · by_cases hco : confirmed
    · rcases hg : submitGo oracle fs 0 st.batches with ⟨bs', saves, subs⟩
      have hspec := submitGo_spec oracle fs st.batches 0
      rw [hg] at hspec
      have hbs' : bs' = submitUpTo oracle fs
          ((st.batches.filter (fun b => b.status = .pending)).length) 0
          st.batches := congrArg (fun t => t.1) hspec
      have hf := submitUpTo_forall₂ oracle fs st.batches 0
      rw [← hbs'] at hf
      have hfwd : List.Forall₂ StepForward st.batches bs' :=
        List.Forall₂.imp (fun _ _ h => submitStep_forward h) hf
      simpa [cmd_submit, he, hco, hg] using hfwd
    · have hfwd : List.Forall₂ StepForward st.batches st.batches :=
        List.forall₂_same.mpr (fun b _ => ⟨Nat.le_refl _, fun hm => hm⟩)
      simpa [cmd_submit, he, hco] using hfwd

/-- A merged-or-untouched chunk never moved backward, and became `merged`
only from `ended`. -/
theorem mergeStep_forward {b b' : Batch} (h : MergeStep b b') :
    StepForwardMerge b b' := by
  unfold MergeStep at h
  by_cases hs : mergeSkips b
  · rw [if_pos hs] at h
    subst h
    exact ⟨Nat.le_refl _, fun hm => Or.inl hm⟩
  · rw [if_neg hs] at h
    have hend : b.status = .ended := by
      simp only [mergeSkips, Bool.decide_or, Bool.or_eq_true,
        decide_eq_true_eq, not_or] at hs
      rcases hs with ⟨_, h2, _⟩
      by_contra hne
      exact h2 hne
    rcases h with ⟨h1, _⟩
    constructor
    · rw [hend, h1]
      exact Nat.le_succ 3
    · intro _
      exact Or.inr hend

/-- The completion expression of line 340 over a batches document. -/
theorem doneExpr_iff (l : List Batch) :
    (!(l.filter (fun b => b.batch_id.isSome)).isEmpty &&
      (l.filter (fun b => b.batch_id.isSome)).all
        (fun b => decide (b.status = .ended ∨ b.status = .merged))) = true ↔
      ((∃ b ∈ l, b.batch_id.isSome = true) ∧
        ∀ b ∈ l, b.batch_id.isSome = true →
          (b.status = .ended ∨ b.status = .merged)) := by
  rw [Bool.and_eq_true, Bool.not_eq_true', List.all_eq_true]
  constructor
  · rintro ⟨h1, h2⟩
    constructor
    · by_contra hno
      push_neg at hno
      have hnil : l.filter (fun b => b.batch_id.isSome) = [] :=
        List.filter_eq_nil_iff.mpr (fun a ha => by simp [hno a ha])
      rw [hnil] at h1
      simp at h1
    · intro b hb hid
      have := h2 b (List.mem_filter.mpr ⟨hb, hid⟩)
      simpa using this
  · rintro ⟨⟨b, hb, hid⟩, h2⟩
    constructor
    · have hmem : b ∈ l.filter (fun x => x.batch_id.isSome) :=
        List.mem_filter.mpr ⟨hb, hid⟩
      rw [List.isEmpty_eq_false]
      intro hnil
      rw [hnil] at hmem
      cases hmem
    · intro x hx
      rcases List.mem_filter.mp hx with ⟨hxl, hxid⟩
      simpa using h2 x hxl hxid

/-- The poller's returned completion boolean, expressed over its own
updated batches document. -/
theorem checkStatus_done (client : String → ProcessingStatus × Nat × Nat)
    (st : PipelineState) :
    (checkStatus client st).2.2 =
      (!(((checkStatus client st).1.batches).filter
          (fun b => b.batch_id.isSome)).isEmpty &&
        (((checkStatus client st).1.batches).filter
          (fun b => b.batch_id.isSome)).all
          (fun b => decide (b.status = .ended ∨ b.status = .merged))) := by
  simp [checkStatus]

/-!  # Claim theorems: state machine, submission, polling -/

/-- C1: every operation moves a chunk's status only forward along
`pending → submitted → in_progress → ended → merged`.  The poller and the
submitter never produce `merged` (`StepForward`); the merger may, but only
from `ended` (`StepForwardMerge`); re-running prepare against an existing
state without `--force` changes nothing. -/
theorem C1_status_machine_monotone :
    (∀ (client : String → ProcessingStatus × Nat × Nat) (st : PipelineState),
      List.Forall₂ StepForward st.batches (checkStatus client st).1.batches) ∧
    (∀ (confirmed : Bool) (client : String → ProcessingStatus × Nat × Nat)
        (oracle : Nat → List BatchRequest → String)
        (fs : String → List BatchRequest) (st : PipelineState),
      List.Forall₂ StepForward st.batches
        (cmd_submit confirmed client oracle fs st).1.batches) ∧
    (∀ (mclient : String → List BatchResult) (st : PipelineState)
        (cache0 : Cache),
      List.Forall₂ StepForwardMerge st.batches
        (cmd_merge mclient st cache0).1.batches) ∧
    (∀ (L : Nat) (st : PipelineState) (pa : String) (brands : List NeedRec),
      (cmd_prepare L false (some st) pa brands).1 = st) := by
  refine ⟨checkStatus_forward, cmd_submit_forward, ?_, ?_⟩
  · intro mclient st cache0
    rcases hm : mergeLoop mclient st.batches cache0 with ⟨bs', res', calls⟩
    have hf := mergeLoop_forall₂ mclient st.batches cache0
    rw [hm] at hf
    have hfwd : List.Forall₂ StepForwardMerge st.batches bs' :=
      List.Forall₂.imp (fun _ _ h => mergeStep_forward h) hf
    by_cases he : res'.isEmpty <;> simpa [cmd_merge, hm, he] using hfwd
  · intro L st pa brands
    simp [cmd_prepare]

/-- C1 witness: one poller sweep over a single submitted chunk, with the
service reporting `ended`. -/
theorem C1_status_machine_monotone_witness :
    List.Forall₂ StepForward
      (⟨"t", 1, "m", [⟨0, some "j", "f", .submitted, 1, none, none⟩]⟩ : PipelineState).batches
      (checkStatus (fun _ => (.ended, 2, 1))
        ⟨"t", 1, "m", [⟨0, some "j", "f", .submitted, 1, none, none⟩]⟩).1.batches :=
  C1_status_machine_monotone.1 _ _

/-- C3 (amended): when at least one chunk is pending, submit transforms
exactly the pending chunks (status `submitted`, job identifier recorded),
leaves every other chunk unchanged, submits exactly the pending chunks'
request lists, and saves the state document once per submitted chunk,
immediately after that chunk and before the next.  When no chunk is
pending, nothing is submitted and the command instead runs a status poll,
whose updated state it leaves behind. -/
theorem C3_submit_exactly_pending :
    (∀ (client : String → ProcessingStatus × Nat × Nat)
        (oracle : Nat → List BatchRequest → String)
        (fs : String → List BatchRequest) (st : PipelineState),
      st.batches.filter (fun b => b.status = .pending) ≠ [] →
      (cmd_submit true client oracle fs st).1.batches =
        submitUpTo oracle fs
          ((st.batches.filter (fun b => b.status = .pending)).length) 0
          st.batches ∧
      List.Forall₂ SubmitStep st.batches
        (cmd_submit true client oracle fs st).1.batches ∧
      (cmd_submit true client oracle fs st).2.2 =
        (st.batches.filter (fun b => b.status = .pending)).map
          (fun b => fs b.file) ∧
      (cmd_submit true client oracle fs st).2.1 =
        (List.range
          ((st.batches.filter (fun b => b.status = .pending)).length)).map
          (fun k => { st with batches := submitUpTo oracle fs (k + 1) 0 st.batches })) ∧
    (∀ (confirmed : Bool) (client : String → ProcessingStatus × Nat × Nat)
        (oracle : Nat → List BatchRequest → String)
        (fs : String → List BatchRequest) (st : PipelineState),
      st.batches.filter (fun b => b.status = .pending) = [] →
      (cmd_submit confirmed client oracle fs st).2.2 = [] ∧
      (cmd_submit confirmed client oracle fs st).1 = (checkStatus client st).1) := by
  constructor
  · intro client oracle fs st hne
    have hie : (st.batches.filter (fun b => b.status = .pending)).isEmpty = false :=
      List.isEmpty_eq_false.mpr hne
    rcases hg : submitGo oracle fs 0 st.batches with ⟨bs', saves, subs⟩
    have hspec := submitGo_spec oracle fs st.batches 0
    rw [hg, Prod.mk.injEq, Prod.mk.injEq] at hspec
    rcases hspec with ⟨hbs, hsaves, hsubs⟩
    refine ⟨?_, ?_, ?_, ?_⟩
    · simpa [cmd_submit, hie, hg] using hbs
    · have hf := submitUpTo_forall₂ oracle fs st.batches 0
      rw [← hbs] at hf
      simpa [cmd_submit, hie, hg] using hf
    · simpa [cmd_submit, hie, hg] using hsubs
    · rw [show (cmd_submit true client oracle fs st).2.1 =
          saves.map (fun l => { st with batches := l }) by
          simp [cmd_submit, hie, hg]]
      rw [hsaves, List.map_map]
      rfl
  · intro confirmed client oracle fs st hnil
    have hie : (st.batches.filter (fun b => b.status = .pending)).isEmpty = true := by
      rw [hnil]
      rfl
    rcases hc : checkStatus client st with ⟨st', changed, done⟩
    constructor
    · simp [cmd_submit, hie, hc]
    · simp [cmd_submit, hie, hc]

/-- C3 witness: a store with one pending chunk submits exactly that chunk's
request list. -/
theorem C3_submit_exactly_pending_witness :
    (cmd_submit true (fun _ => (.ended, 0, 0)) (fun _ _ => "jid")
      (fun _ => [⟨"r", "m", 1, "p"⟩])
      ⟨"t", 1, "m", [⟨0, none, "f", .pending, 1, none, none⟩]⟩).2.2 =
      [[⟨"r", "m", 1, "p"⟩]] := by
  have h := C3_submit_exactly_pending.1 (fun _ => (.ended, 0, 0))
    (fun _ _ => "jid") (fun _ => [⟨"r", "m", 1, "p"⟩])
    ⟨"t", 1, "m", [⟨0, none, "f", .pending, 1, none, none⟩]⟩ (by decide)
  exact h.2.2.1.trans (by decide)

/-- C3 counterexample to the claim as stated: when NO chunk is pending,
`cmd_submit` delegates to the status command (lines 240-243), whose poll
updates a submitted chunk in place — so a non-pending chunk is not left
unchanged by the submit operation, although nothing is submitted for it. -/
theorem C3_nonpending_changed_counterexample :
    (cmd_submit true (fun _ => (.ended, 5, 0)) (fun _ _ => "x") (fun _ => [])
      ⟨"t", 1, "m", [⟨0, some "j", "f", .submitted, 1, none, none⟩]⟩).2.2 = [] ∧
    (cmd_submit true (fun _ => (.ended, 5, 0)) (fun _ _ => "x") (fun _ => [])
      ⟨"t", 1, "m", [⟨0, some "j", "f", .submitted, 1, none, none⟩]⟩).1.batches ≠
      [⟨0, some "j", "f", .submitted, 1, none, none⟩] := by
  exact ⟨by decide, by decide⟩

/-- C4: the poller's completion predicate is true exactly when at least one
chunk carries a job identifier and every such chunk is `ended` or `merged`
(over the freshly updated document); with no submitted chunk at all it is
false regardless of statuses. -/
theorem C4_completion_predicate (client : String → ProcessingStatus × Nat × Nat)
    (st : PipelineState) :
    ((checkStatus client st).2.2 = true ↔
      ((∃ b ∈ (checkStatus client st).1.batches, b.batch_id.isSome = true) ∧
        ∀ b ∈ (checkStatus client st).1.batches, b.batch_id.isSome = true →
          (b.status = .ended ∨ b.status = .merged))) ∧
    ((∀ b ∈ st.batches, b.batch_id = none) →
      (checkStatus client st).2.2 = false) := by
  constructor
  · rw [checkStatus_done]
    exact doneExpr_iff _
  · intro hnone
    rw [checkStatus_done]
    have hnil : ((checkStatus client st).1.batches).filter
        (fun b => b.batch_id.isSome) = [] := by
      apply List.filter_eq_nil_iff.mpr
      intro a ha
      rw [checkStatus_batches] at ha
      rcases List.mem_map.mp ha with ⟨b, hb, rfl⟩
      have hid := (refreshBatch_spec client b).1
      rw [hnone b hb] at hid
      simp [hid]
    rw [hnil]
    rfl

/-- C4 witness: a store whose only chunk was never submitted reports
not-done even though that chunk's status is `ended`. -/
theorem C4_completion_predicate_witness :
    (checkStatus (fun _ => (.ended, 0, 0))
      ⟨"t", 1, "m", [⟨0, none, "f", .ended, 1, some 1, some 0⟩]⟩).2.2 = false :=
  (C4_completion_predicate _ _).2 (by decide)

/-!  # Claim theorems: state store persistence -/

/-- C2 (amended): `_save_state` writes the whole document in place — every
observable file content during the write is either the previous document or
a character prefix of the new one (possibly empty, right after the `"w"`
truncation), and a completed save leaves exactly the complete new
document among the views.  The write is NOT an atomic replace. -/
theorem C2_save_whole_document (old : String) (st : PipelineState) :
    (∀ v ∈ saveStateViews old st,
      v = old ∨ ∃ k, k ≤ (encodeState st).data.length ∧
        v = String.mk ((encodeState st).data.take k)) ∧
    encodeState st ∈ saveStateViews old st := by
  constructor
  · intro v hv
    rcases List.mem_cons.mp hv with hv | hv
    · exact Or.inl hv
    · rcases List.mem_map.mp hv with ⟨k, hk, rfl⟩
      exact Or.inr ⟨k, Nat.lt_succ_iff.mp (List.mem_range.mp hk), rfl⟩
  · apply List.mem_cons_of_mem
    apply List.mem_map.mpr
    refine ⟨(encodeState st).data.length, List.mem_range.mpr (Nat.lt_succ_self _), ?_⟩
    rw [List.take_length]

/-- C2 witness: the empty post-truncation view of a concrete save is the
previous document or a prefix of the new one. -/
theorem C2_save_whole_document_witness :
    "" = encodeState ⟨"t1", 1, "m", []⟩ ∨
    ∃ k, k ≤ (encodeState ⟨"t2", 2, "m", []⟩).data.length ∧
      "" = String.mk ((encodeState ⟨"t2", 2, "m", []⟩).data.take k) :=
  (C2_save_whole_document (encodeState ⟨"t1", 1, "m", []⟩) ⟨"t2", 2, "m", []⟩).1
    "" (by decide)

/-- C2 counterexample to the claim as stated: `_save_state` is
`STATE_FILE.write_text(...)` (line 86), a truncate-then-write with no
temp-file-and-rename, so a crash between truncation and the first write
leaves the empty document — neither the complete previous document nor the
complete new one. -/
theorem C2_truncated_view_counterexample :
    "" ∈ saveStateViews (encodeState ⟨"t1", 1, "m", []⟩) ⟨"t2", 2, "m", []⟩ ∧
    "" ≠ encodeState ⟨"t1", 1, "m", []⟩ ∧
    "" ≠ encodeState ⟨"t2", 2, "m", []⟩ := by
  exact ⟨by decide, by decide, by decide⟩

/-!  # Lemmas: batch partitioner -/

/-- One step of the ceiling-division recurrence behind the chunk count. -/
theorem ceil_div_step (n L : Nat) (hL : L ≠ 0) (hn : n ≠ 0) :
    (n - L + L - 1) / L + 1 = (n + L - 1) / L := by
  have hL' : 0 < L := Nat.pos_of_ne_zero hL
  rcases Nat.le_total L n with hls | hls
  · have e1 : n - L + L - 1 = n - 1 := by omega
    have e2 : n + L - 1 = (n - 1) + L := by omega
    rw [e1, e2, Nat.add_div_right _ hL']
  · have e1 : n - L + L - 1 = L - 1 := by omega
    have e2 : n + L - 1 = (n - 1) + L := by omega
    rw [e1, e2, Nat.add_div_right _ hL']
    have d1 : (L - 1) / L = 0 := Nat.div_eq_of_lt (by omega)
    have d2 : (n - 1) / L = 0 := Nat.div_eq_of_lt (by omega)
    omega

/-- The slices concatenate back to the original list. -/
theorem chunksOf_flatten {α : Type} (L : Nat) (hL : L ≠ 0) (l : List α) :
    (chunksOf L l).flatten = l := by
  induction l using chunksOf.induct L with
  | case1 => simp [chunksOf]
  | case2 x xs h => exact absurd h hL
  | case3 x xs h ih =>
    rw [chunksOf]
    simp only [dif_neg h, List.flatten_cons]
    rw [ih]
    exact List.take_append_drop _ _

/-- There are exactly `⌈n / L⌉` slices. -/
theorem chunksOf_length {α : Type} (L : Nat) (hL : L ≠ 0) (l : List α) :
    (chunksOf L l).length = (l.length + L - 1) / L := by
  induction l using chunksOf.induct L with
  | case1 =>
    have hlt : L - 1 < L := by omega
    simp [chunksOf, Nat.div_eq_of_lt hlt]
  | case2 x xs h => exact absurd h hL
  | case3 x xs h ih =>
    rw [chunksOf]
    simp only [dif_neg h, List.length_cons, ih, List.length_drop]
    exact ceil_div_step (xs.length + 1) L hL (Nat.succ_ne_zero _)

/-- Every slice has at most `L` elements. -/
theorem chunksOf_size_le {α : Type} (L : Nat) (hL : L ≠ 0) (l : List α) :
    ∀ c ∈ chunksOf L l, c.length ≤ L := by
  induction l using chunksOf.induct L with
  | case1 => simp [chunksOf]
  | case2 x xs h => exact absurd h hL
  | case3 x xs h ih =>
    rw [chunksOf]
    simp only [dif_neg h, List.mem_cons]
    rintro c (rfl | hc)
    · simp [List.length_take]
    · exact ih c hc

/-- Every slice but possibly the last has exactly `L` elements. -/
theorem chunksOf_dropLast {α : Type} (L : Nat) (hL : L ≠ 0) (l : List α) :
    ∀ c ∈ (chunksOf L l).dropLast, c.length = L := by
  induction l using chunksOf.induct L with
  | case1 => simp [chunksOf]
  | case2 x xs h => exact absurd h hL
  | case3 x xs h ih =>
    rw [chunksOf]
    simp only [dif_neg h]
    cases hrec : chunksOf L (List.drop L (x :: xs)) with
    | nil => simp
    | cons y ys =>
      intro c hc
      rw [List.dropLast_cons_of_ne_nil (by simp)] at hc
      rcases List.mem_cons.mp hc with rfl | hc2
      · have hne : List.drop L (x :: xs) ≠ [] := by
          intro hnil
          rw [hnil] at hrec
          simp [chunksOf] at hrec
        have hlt : L < (x :: xs).length := by
          by_contra hge
          push_neg at hge
          exact hne (List.drop_eq_nil_of_le hge)
        simp only [List.length_cons] at hlt
        simp only [List.length_take, List.length_cons]
        omega
      · rw [← hrec] at hc2
        exact ih c hc2

/-!  # Claim theorems: batch partitioner -/

/-- C6: for any positive limit `L`, partitioning yields exactly
`⌈n / L⌉ = (n + L - 1) / L` chunks whose concatenation in index order is
`needed_records`, each of size ≤ `L` and all but possibly the last of size
exactly `L`; the prepared state's chunk indices form the contiguous range
`0..len(chunks)-1` and its per-chunk counts are the slice sizes. -/
theorem C6_partition (L : Nat) (hL : 0 < L) (pa : String)
    (brands : List NeedRec) :
    (chunksOf L brands).flatten = brands ∧
    (chunksOf L brands).length = (brands.length + L - 1) / L ∧
    (∀ c ∈ chunksOf L brands, c.length ≤ L) ∧
    (∀ c ∈ (chunksOf L brands).dropLast, c.length = L) ∧
    (prepareFresh L pa brands).1.batches.map (fun b => b.index) =
      List.range (chunksOf L brands).length ∧
    (prepareFresh L pa brands).1.batches.map (fun b => b.count) =
      (chunksOf L brands).map (fun c => c.length) ∧
    (prepareFresh L pa brands).1.total_brands = brands.length := by
  have hL' : L ≠ 0 := by omega
  refine ⟨chunksOf_flatten L hL' brands, chunksOf_length L hL' brands,
    chunksOf_size_le L hL' brands, chunksOf_dropLast L hL' brands, ?_, ?_, rfl⟩
  · have h1 : (prepareFresh L pa brands).1.batches.map (fun b => b.index) =
        (chunksOf L brands).enum.map Prod.fst := by
      simp only [prepareFresh, List.map_map]
      rfl
    rw [h1, List.enum_map_fst]
  · have h2 : (prepareFresh L pa brands).1.batches.map (fun b => b.count) =
        ((chunksOf L brands).enum.map Prod.snd).map (fun c => c.length) := by
      simp only [prepareFresh, List.map_map]
      rfl
    rw [h2, List.enum_map_snd]

/-- C6 witness: five records with limit two form chunks `[2, 2, 1]` whose
concatenation is the input. -/
theorem C6_partition_witness :
    (chunksOf 2 [(⟨"a", "A", "", []⟩ : NeedRec), ⟨"b", "B", "", []⟩, ⟨"c", "C", "", []⟩, ⟨"d", "D", "", []⟩, ⟨"e", "E", "", []⟩]).flatten =
      [(⟨"a", "A", "", []⟩ : NeedRec), ⟨"b", "B", "", []⟩, ⟨"c", "C", "", []⟩, ⟨"d", "D", "", []⟩, ⟨"e", "E", "", []⟩] :=
  (C6_partition 2 (by decide) "t"
    [⟨"a", "A", "", []⟩, ⟨"b", "B", "", []⟩, ⟨"c", "C", "", []⟩, ⟨"d", "D", "", []⟩, ⟨"e", "E", "", []⟩]).1

/-!  # Lemmas: result text normalization -/

/-- `text.split()` yields only nonempty, whitespace-free words. -/
theorem splitWs_words :
    ∀ (cs acc : List Char), (∀ c ∈ acc, c.isWhitespace = false) →
      ∀ w ∈ splitWs cs acc, w ≠ [] ∧ ∀ c ∈ w, c.isWhitespace = false := by
  intro cs
  induction cs with
  | nil =>
    intro acc hacc w hw
    cases acc with
    | nil => simp [splitWs] at hw
    | cons a t =>
      simp only [splitWs, List.mem_singleton] at hw
      subst hw
      refine ⟨by simp, fun c hc => hacc c (List.mem_reverse.mp hc)⟩
  | cons c cs ih =>
    intro acc hacc w hw
    by_cases hws : c.isWhitespace
    · by_cases hae : acc.isEmpty
      · rw [show splitWs (c :: cs) acc = splitWs cs [] by
            simp [splitWs, hws, hae]] at hw
        exact ih [] (by simp) w hw
      · rw [show splitWs (c :: cs) acc = acc.reverse :: splitWs cs [] by
            simp [splitWs, hws, hae]] at hw
        rcases List.mem_cons.mp hw with rfl | hw2
        · have hane : acc ≠ [] := by
            intro hnil
            rw [hnil] at hae
            exact hae rfl
          refine ⟨by simpa using hane, fun x hx => hacc x (List.mem_reverse.mp hx)⟩
        · exact ih [] (by simp) w hw2
    · rw [show splitWs (c :: cs) acc = splitWs cs (c :: acc) by
          simp [splitWs, hws]] at hw
      refine ih (c :: acc) ?_ w hw
      intro x hx
      rcases List.mem_cons.mp hx with rfl | hx2
      · exact Bool.of_not_eq_true hws
      · exact hacc x hx2

/-- Unfolding of `joinWords` on a two-or-more word list. -/
theorem joinWords_cons_cons (w w' : List Char) (rest : List (List Char)) :
    joinWords (w :: w' :: rest) = w ++ ' ' :: joinWords (w' :: rest) := rfl

/-- Joining nonempty words never produces the empty list. -/
theorem joinWords_ne_nil :
    ∀ ws : List (List Char), ws ≠ [] → (∀ w ∈ ws, w ≠ []) →
      joinWords ws ≠ [] := by
  intro ws
  match ws with
  | [] => intro h _; exact absurd rfl h
  | [w] =>
    intro _ hw
    simpa [joinWords] using hw w (List.mem_singleton.mpr rfl)
  | w :: w' :: rest =>
    intro _ _
    simp only [joinWords]
    intro hnil
    rcases List.append_eq_nil.mp hnil with ⟨_, h2⟩
    cases h2

/-- Joining nonempty whitespace-free words with single spaces yields a
collapsed string. -/
theorem joinWords_collapsed :
    ∀ ws : List (List Char),
      (∀ w ∈ ws, w ≠ [] ∧ ∀ c ∈ w, c.isWhitespace = false) →
      collapsedSpec (joinWords ws) := by
  intro ws
  match ws with
  | [] =>
    intro _
    exact ⟨by simp [joinWords], by simp [joinWords], by simp [joinWords],
      by simp [joinWords]⟩
  | [w] =>
    intro h
    rcases h w (List.mem_singleton.mpr rfl) with ⟨hne, hfree⟩
    have hnsp : ∀ c ∈ w, c ≠ ' ' := by
      intro c hc hsp
      have := hfree c hc
      rw [hsp] at this
      simp at this
    refine ⟨?_, ?_, ?_, ?_⟩
    · intro c hc hws
      rw [joinWords] at hc
      rw [hfree c hc] at hws
      cases hws
    · rw [joinWords]
      exact List.Pairwise.chain'
        (List.pairwise_of_forall_mem_list
          (fun a ha b _ => fun hab => hnsp a ha hab.1))
    · rw [joinWords]
      cases w with
      | nil => exact absurd rfl hne
      | cons a t =>
        simp only [List.head?_cons, ne_eq, Option.some.injEq]
        exact hnsp a (List.mem_cons_self a t)
    · rw [joinWords]
      intro hlast
      cases hgl : w.getLast? with
      | none => rw [hgl] at hlast; cases hlast
      | some c =>
        rw [hgl] at hlast
        have hc : c ∈ w := List.mem_of_mem_getLast? (by rw [Option.mem_def, hgl])
        exact hnsp c hc (Option.some.inj hlast)
  | w :: w' :: rest =>
    intro h
    rcases h w (List.mem_cons_self _ _) with ⟨hne, hfree⟩
    have hnsp : ∀ c ∈ w, c ≠ ' ' := by
      intro c hc hsp
      have := hfree c hc
      rw [hsp] at this
      simp at this
    have htail : (∀ x ∈ w' :: rest, x ≠ [] ∧ ∀ c ∈ x, c.isWhitespace = false) :=
      fun x hx => h x (List.mem_cons_of_mem _ hx)
    have ih := joinWords_collapsed (w' :: rest) htail
    have htne : joinWords (w' :: rest) ≠ [] :=
      joinWords_ne_nil (w' :: rest) (by simp) (fun x hx => (htail x hx).1)
    rcases ih with ⟨ih1, ih2, ih3, ih4⟩
    have hjw : joinWords (w :: w' :: rest) = w ++ ' ' :: joinWords (w' :: rest) :=
      joinWords_cons_cons w w' rest
    refine ⟨?_, ?_, ?_, ?_⟩
    · rw [hjw]
      intro c hc hws
      rcases List.mem_append.mp hc with hcw | hct
      · rw [hfree c hcw] at hws
        cases hws
      · rcases List.mem_cons.mp hct with rfl | hct2
        · rfl
        · exact ih1 c hct2 hws
    · rw [hjw, List.chain'_append]
      refine ⟨?_, ?_, ?_⟩
      · exact List.Pairwise.chain'
          (List.pairwise_of_forall_mem_list
            (fun a ha b _ => fun hab => hnsp a ha hab.1))
      · rw [List.chain'_cons']
        refine ⟨?_, ih2⟩
        intro y hy hsp
        apply ih3
        rw [Option.mem_def] at hy
        rw [hy, hsp.2]
      · intro x hx y hy hxy
        exact hnsp x (List.mem_of_mem_getLast? hx) hxy.1
    · rw [hjw]
      cases w with
      | nil => exact absurd rfl hne
      | cons a t =>
        simp only [List.cons_append, List.head?_cons, ne_eq, Option.some.injEq]
        exact hnsp a (List.mem_cons_self a t)
    · rw [hjw, List.getLast?_append_of_ne_nil w (by simp)]
      cases ht : joinWords (w' :: rest) with
      | nil => exact absurd ht htne
      | cons b bs =>
        rw [List.getLast?_cons_cons]
        rw [← ht]
        exact ih4

/-- The words of `text.split()` concatenate to the non-whitespace characters
of the input, in order. -/
theorem splitWs_flatten :
    ∀ (cs acc : List Char),
      (splitWs cs acc).flatten =
        acc.reverse ++ cs.filter (fun c => !c.isWhitespace) := by
  intro cs
  induction cs with
  | nil =>
    intro acc
    cases acc with
    | nil => simp [splitWs]
    | cons a t => simp [splitWs]
  | cons c cs ih =>
    intro acc
    by_cases hws : c.isWhitespace
    · by_cases hae : acc.isEmpty
      · have hanil : acc = [] := List.isEmpty_iff.mp hae
        rw [show splitWs (c :: cs) acc = splitWs cs [] by
            simp [splitWs, hws, hae]]
        rw [ih []]
        simp [hanil, List.filter_cons, hws]
      · rw [show splitWs (c :: cs) acc = acc.reverse :: splitWs cs [] by
            simp [splitWs, hws, hae]]
        rw [List.flatten_cons, ih []]
        simp [List.filter_cons, hws]
    · rw [show splitWs (c :: cs) acc = splitWs cs (c :: acc) by
          simp [splitWs, hws]]
      rw [ih (c :: acc)]
      simp [List.filter_cons, hws]

/-- Joining whitespace-free words and filtering the separators back out
recovers the concatenation of the words. -/
theorem joinWords_filter :
    ∀ ws : List (List Char),
      (∀ w ∈ ws, ∀ c ∈ w, c.isWhitespace = false) →
      (joinWords ws).filter (fun c => !c.isWhitespace) = ws.flatten := by
  intro ws
  match ws with
  | [] => intro _; simp [joinWords]
  | [w] =>
    intro h
    simp only [joinWords, List.flatten_cons, List.flatten_nil, List.append_nil]
    exact List.filter_eq_self.mpr (fun c hc => by simp [h w (by simp) c hc])
  | w :: w' :: rest =>
    intro h
    have ih := joinWords_filter (w' :: rest)
      (fun x hx => h x (List.mem_cons_of_mem _ hx))
    have h1 : List.filter (fun c => !c.isWhitespace) w = w :=
      List.filter_eq_self.mpr
        (fun c hc => by simp [h w (List.mem_cons_self _ _) c hc])
    have hsp : (!(' ' : Char).isWhitespace) = false := by decide
    have h2 : List.filter (fun c => !c.isWhitespace)
        (' ' :: joinWords (w' :: rest)) = (w' :: rest).flatten := by
      rw [List.filter_cons, hsp]
      simpa using ih
    rw [joinWords_cons_cons, List.filter_append, List.flatten_cons, h1, h2]

/-!  # Claim theorems: result text normalization -/

/-- C9: `_sanitize` collapses every internal whitespace run to a single
space and trims the ends (`collapsedSpec`), keeps exactly the
non-whitespace characters in order, guarantees a terminal `.`, `!` or `?`
on every nonempty output, appends `'.'` exactly when the collapsed text is
nonempty and does not already end in punctuation, and in particular maps
`"  Sells shoes  "` to `"Sells shoes."`. -/
theorem C9_sanitize_normalizes (s : List Char) :
    collapsedSpec (collapseWs s) ∧
    (collapseWs s).filter (fun c => !c.isWhitespace) =
      s.filter (fun c => !c.isWhitespace) ∧
    (sanitizeL s ≠ [] →
      ∃ c, (sanitizeL s).getLast? = some c ∧ c ∈ punctChars) ∧
    ((sanitizeL s = collapseWs s ++ ['.']) ↔
      (collapseWs s ≠ [] ∧
        ∀ c, (collapseWs s).getLast? = some c → c ∉ punctChars)) ∧
    sanitize "  Sells shoes  " = "Sells shoes." := by
  have hwords := splitWs_words s [] (by simp)
  refine ⟨?_, ?_, ?_, ?_, by decide⟩
  · exact joinWords_collapsed (splitWs s []) hwords
  · show (joinWords (splitWs s [])).filter (fun c => !c.isWhitespace) = _
    rw [joinWords_filter (splitWs s []) (fun w hw => (hwords w hw).2),
      splitWs_flatten s []]
    simp
  · intro hne
    cases hgl : (collapseWs s).getLast? with
    | none =>
      exfalso
      apply hne
      have hnil : collapseWs s = [] := List.getLast?_eq_none_iff.mp hgl
      simp [sanitizeL, hgl, hnil]
    | some c =>
      by_cases hc : c ∈ punctChars
      · exact ⟨c, by simp [sanitizeL, hgl, hc], hc⟩
      · refine ⟨'.', ?_, by decide⟩
        simp [sanitizeL, hgl, hc, List.getLast?_concat]
  · constructor
    · intro heq
      cases hgl : (collapseWs s).getLast? with
      | none =>
        exfalso
        rw [show sanitizeL s = collapseWs s by simp [sanitizeL, hgl]] at heq
        have := congrArg List.length heq
        simp at this
      | some c =>
        by_cases hc : c ∈ punctChars
        · exfalso
          rw [show sanitizeL s = collapseWs s by simp [sanitizeL, hgl, hc]] at heq
          have := congrArg List.length heq
          simp at this
        · refine ⟨?_, ?_⟩
          · intro hnil
            rw [hnil] at hgl
            cases hgl
          · intro c' hc'
            have hcc : c' = c := (Option.some.inj hc').symm
            rw [hcc]
            exact hc
    · rintro ⟨hne, hfa⟩
      cases hgl : (collapseWs s).getLast? with
      | none => exact absurd (List.getLast?_eq_none_iff.mp hgl) hne
      | some c =>
        have hc := hfa c hgl
        simp [sanitizeL, hgl, hc]

/-- C9 witness: the sanitized `"  Sells shoes  "` is nonempty and ends in
sentence punctuation. -/
theorem C9_sanitize_normalizes_witness :
    ∃ c, (sanitizeL "  Sells shoes  ".data).getLast? = some c ∧
      c ∈ punctChars :=
  (C9_sanitize_normalizes "  Sells shoes  ".data).2.2.1 (by decide)

/-!  # Lemmas: record scanner -/

/-- Boolean membership on string lists agrees with membership. -/
theorem contains_iff_mem (l : List String) (x : String) :
    l.contains x = true ↔ x ∈ l := by
  simp [List.contains_iff_exists_mem_beq, beq_iff_eq]

/-- Unfolding of `dedupFirst` on nil. -/
theorem dedupFirst_nil : dedupFirst [] = [] := by
  rw [dedupFirst]

/-- Unfolding of `dedupFirst` on cons. -/
theorem dedupFirst_cons (s : String) (rest : List String) :
    dedupFirst (s :: rest) =
      s :: dedupFirst (rest.filter (fun x => x ≠ s)) := by
  rw [dedupFirst]

/-- First-occurrence deduplication only keeps elements of the input. -/
theorem dedupFirst_sub : ∀ (l : List String) (x : String),
    x ∈ dedupFirst l → x ∈ l := by
  intro l
  induction l using dedupFirst.induct with
  | case1 => intro x hx; rw [dedupFirst_nil] at hx; cases hx
  | case2 s rest ih =>
    intro x hx
    rw [dedupFirst_cons] at hx
    rcases List.mem_cons.mp hx with rfl | hx2
    · exact List.mem_cons_self _ _
    · have := ih x hx2
      exact List.mem_cons_of_mem _ (List.mem_of_mem_filter this)

/-- First-occurrence deduplication yields no duplicates. -/
theorem dedupFirst_nodup : ∀ l : List String, (dedupFirst l).Nodup := by
  intro l
  induction l using dedupFirst.induct with
  | case1 => rw [dedupFirst_nil]; exact List.nodup_nil
  | case2 s rest ih =>
    rw [dedupFirst_cons]
    refine List.Nodup.cons ?_ ih
    intro hmem
    have hf := dedupFirst_sub _ _ hmem
    have := List.of_mem_filter hf
    simp at this

/-- Unfolding of pass 2 when the head is suppressed. -/
theorem scanNeeds_cons_skip (hasDesc seen : List String) (b : SourceBrand)
    (rest : List SourceBrand)
    (h : (seen.contains b.slug || hasDesc.contains b.slug) = true) :
    scanNeeds hasDesc seen (b :: rest) = scanNeeds hasDesc seen rest := by
  simp only [scanNeeds]
  rw [if_pos h]

/-- Unfolding of pass 2 when the head is emitted. -/
theorem scanNeeds_cons_keep (hasDesc seen : List String) (b : SourceBrand)
    (rest : List SourceBrand)
    (h : (seen.contains b.slug || hasDesc.contains b.slug) = false) :
    scanNeeds hasDesc seen (b :: rest) =
      { slug := b.slug, name := b.name.getD b.slug,
        domain := b.domain.getD "", categories := b.categories.getD [] } ::
        scanNeeds hasDesc (b.slug :: seen) rest := by
  simp only [scanNeeds]
  rw [if_neg (by rw [h]; simp)]

/-- The slugs emitted by pass 2 are the first occurrences of the slugs not
suppressed by `seen` or the description set, in input order. -/
theorem scanNeeds_slugs :
    ∀ (l : List SourceBrand) (hasDesc seen : List String),
      (scanNeeds hasDesc seen l).map (fun r => r.slug) =
        dedupFirst ((l.map (fun b => b.slug)).filter
          (fun s => !seen.contains s && !hasDesc.contains s)) := by
  intro l
  induction l with
  | nil => intro hasDesc seen; simp [scanNeeds, dedupFirst_nil]
  | cons b rest ih =>
    intro hasDesc seen
    cases hskip : (seen.contains b.slug || hasDesc.contains b.slug) with
    | true =>
      have hpred : (!seen.contains b.slug && !hasDesc.contains b.slug) = false := by
        rcases Bool.or_eq_true_iff.mp hskip with h | h <;> rw [h] <;> simp
      rw [scanNeeds_cons_skip hasDesc seen b rest hskip]
      rw [List.map_cons, List.filter_cons, if_neg (by rw [hpred]; simp)]
      exact ih hasDesc seen
    | false =>
      have hseen := (Bool.or_eq_false_iff.mp hskip).1
      have hdesc := (Bool.or_eq_false_iff.mp hskip).2
      have hpred : (!seen.contains b.slug && !hasDesc.contains b.slug) = true := by
        rw [hseen, hdesc]
        rfl
      rw [scanNeeds_cons_keep hasDesc seen b rest hskip]
      rw [List.map_cons, List.map_cons, List.filter_cons, if_pos hpred]
      rw [dedupFirst_cons]
      congr 1
      rw [ih hasDesc (b.slug :: seen), List.filter_filter]
      apply congrArg
      apply List.filter_congr
      intro s _
      by_cases hsb : s = b.slug
      · simp [hsb, List.contains_cons]
      · simp [List.contains_cons, hsb, beq_iff_eq, Bool.and_assoc]

/-!  # Claim theorems: record scanner -/

/-- C5: the scanner errors out when no source collections exist; on success
its output has at most one entry per identity key, never contains a key
carrying a description with content in any collection (the script treats a
whitespace-only description as absent, `.strip()` at line 110), and its
keys are the first occurrences — in first-seen order over the collections
sorted lexicographically by name — of the non-suppressed keys; the reported
collection count is the number of collections. -/
theorem C5_scanner :
    scanBrands [] = Except.error "No brands-*.json files found" ∧
    (∀ (colls : List (String × List SourceBrand)) (needs : List NeedRec)
        (n : Nat),
      scanBrands colls = Except.ok (needs, n) →
      (needs.map (fun r => r.slug)).Nodup ∧
      (∀ key, (∃ f ∈ colls, ∃ b ∈ f.2, b.slug = key ∧ hasDescription b = true) →
        key ∉ needs.map (fun r => r.slug)) ∧
      needs.map (fun r => r.slug) =
        dedupFirst ((((sortColls colls).flatMap (fun f => f.2)).map
          (fun b => b.slug)).filter
            (fun s => !(descSlugs (sortColls colls)).contains s)) ∧
      List.Pairwise (fun a b => a.1 ≤ b.1) (sortColls colls) ∧
      (sortColls colls).Perm colls ∧
      n = colls.length) := by
  constructor
  · rfl
  · intro colls needs n hok
    haveI hT : IsTotal (String × List SourceBrand) (fun a b => a.1 ≤ b.1) :=
      ⟨fun a b => le_total a.1 b.1⟩
    haveI hR : IsTrans (String × List SourceBrand) (fun a b => a.1 ≤ b.1) :=
      ⟨fun _ _ _ hab hbc => le_trans hab hbc⟩
    have hperm : (sortColls colls).Perm colls :=
      List.perm_insertionSort _ colls
    by_cases hie : (sortColls colls).isEmpty
    · rw [show scanBrands colls = Except.error "No brands-*.json files found" by
          simp only [scanBrands]
          rw [if_pos hie]] at hok
      cases hok
    · rw [show scanBrands colls =
          Except.ok (scanNeeds (descSlugs (sortColls colls)) []
              ((sortColls colls).flatMap (fun f => f.2)),
            (sortColls colls).length) by
          simp only [scanBrands]
          rw [if_neg hie]] at hok
      have hpair := Prod.mk.injEq _ _ _ _ ▸ Except.ok.inj hok
      have hneeds : needs = scanNeeds (descSlugs (sortColls colls)) []
          ((sortColls colls).flatMap (fun f => f.2)) := hpair.1.symm
      have hn : n = (sortColls colls).length := hpair.2.symm
      have hslugs : needs.map (fun r => r.slug) =
          dedupFirst ((((sortColls colls).flatMap (fun f => f.2)).map
            (fun b => b.slug)).filter
              (fun s => !(descSlugs (sortColls colls)).contains s)) := by
        rw [hneeds, scanNeeds_slugs]
        apply congrArg
        apply List.filter_congr
        intro s _
        simp
      refine ⟨?_, ?_, hslugs, ?_, hperm, ?_⟩
      · rw [hslugs]
        exact dedupFirst_nodup _
      · intro key ⟨f, hf, b, hb, hbs, hdesc⟩ hmem
        have hkeyD : key ∈ descSlugs (sortColls colls) := by
          apply List.mem_map.mpr
          refine ⟨b, ?_, hbs⟩
          apply List.mem_flatMap.mpr
          exact ⟨f, hperm.mem_iff.mpr hf, List.mem_filter.mpr ⟨hb, hdesc⟩⟩
        rw [hslugs] at hmem
        have hfmem := dedupFirst_sub _ _ hmem
        have hpred := List.of_mem_filter hfmem
        rw [(contains_iff_mem _ _).mpr hkeyD] at hpred
        cases hpred
      · exact List.sorted_insertionSort _ colls
      · rw [hn, hperm.length_eq]

/-- C5 witness: one collection with one undescribed brand yields a
duplicate-free needed list. -/
theorem C5_scanner_witness :
    (([(⟨"acme", "acme", "", []⟩ : NeedRec)].map (fun r => r.slug))).Nodup :=
  (C5_scanner.2 [("brands-us.json", [⟨"acme", none, none, none, none⟩])]
    [⟨"acme", "acme", "", []⟩] 1 rfl).1

end BrandSwitch
